import Mathlib

/-!
A verification development for the wolf request-routing core: a shallow
embedding of its context overlay, pattern engine (template and regexp
patterns), middleware stack, route builder and simple router, together
with theorems about their behaviour.

Paths, pattern texts, variable names and bound values are modelled as
`List Char`; Go maps built by repeated assignment are modelled as
association lists with overwriting insertion.
-/

set_option maxRecDepth 8192

namespace Wolf

/-- Decidable equality for `Except`, for concrete evaluation of fallible
operations. -/
instance {ε α : Type} [DecidableEq ε] [DecidableEq α] : DecidableEq (Except ε α)
  | .ok a, .ok b =>
    if h : a = b then .isTrue (by rw [h])
    else .isFalse (by intro hh; cases hh; exact h rfl)
  | .ok _, .error _ => .isFalse (by intro h; cases h)
  | .error _, .ok _ => .isFalse (by intro h; cases h)
  | .error e, .error f =>
    if h : e = f then .isTrue (by rw [h])
    else .isFalse (by intro hh; cases hh; exact h rfl)

/-! ## Context overlay (router/context.go)

Go stores at most one URL-parameter map in the request context via
`SetURLParams` / `GetURLParams`; `context.WithValue` shadows any earlier
entry for the same key, so the overlay is modelled as an optional map. -/

/-- A URL-parameter map: Go `map[string]string` built by assignment,
modelled as an association list with overwriting insert. -/
abbrev UrlMap := List (List Char × List Char)

/-- Overwriting insertion, modelling Go `m[k] = v`. -/
def mapInsert (m : UrlMap) (k v : List Char) : UrlMap :=
  match m with
  | [] => [(k, v)]
  | (k₀, v₀) :: rest =>
    if k₀ = k then (k, v) :: rest else (k₀, v₀) :: mapInsert rest k v

/-- Lookup in a `UrlMap`, modelling Go `m[k]` presence. -/
def mapLookup (m : UrlMap) (k : List Char) : Option (List Char) :=
  match m with
  | [] => none
  | (k₀, v₀) :: rest => if k₀ = k then some v₀ else mapLookup rest k

/-- The request context, reduced to its single URL-parameters slot
(`none` = no `SetURLParams` call has happened; the base context). -/
abbrev Ctx := Option UrlMap

/-- Go `SetURLParams` (router/context.go): overlays the parameter map,
shadowing any earlier entry. -/
def setURLParams (_ : Ctx) (m : UrlMap) : Ctx := some m

/-- Go `GetURLParams` (router/context.go). -/
def getURLParams (c : Ctx) : Option UrlMap := c

/-! ## Template patterns (StringPattern)

From `StringPattern` and `ParseStringPattern`: break characters are
`/ . ; ,`; the parser scans for `break`+`:`+`name` occurrences exactly as
the Go regexp `[/.;,]:([^/.;,]+)` does with `FindAllStringSubmatchIndex`. -/

/-- The break-character class `/.;,`. -/
def isBreak (c : Char) : Bool :=
  c = '/' || c = '.' || c = ';' || c = ','

/-- A parsed Sinatra-style string pattern (`StringPattern` in the source). -/
structure StringPattern where
  raw : List Char
  pats : List (List Char)
  breaks : List Char
  literals : List (List Char)
  wildcard : Bool
  deriving Repr, DecidableEq

/-- Maximal run of non-break characters (the greedy `[^/.;,]+` group) and
the remaining input. -/
def takeName : List Char → List Char × List Char
  | [] => ([], [])
  | c :: rest =>
    if isBreak c then ([], c :: rest)
    else
      let (n, r) := takeName rest
      (c :: n, r)

/-- Left-to-right scan for non-overlapping `break : name` occurrences,
reporting for each the literal text before it (including the break
character), the variable name, and the break character that terminates it
(`'/'` at end of input).  Also returns the trailing literal.  This mirrors
`patternRe.FindAllStringSubmatchIndex` plus the index arithmetic in
`ParseStringPattern`. -/
def scanTemplateF : Nat → List Char → List Char →
    List (List Char × List Char × Char) × List Char
  | _, [], acc => ([], acc.reverse)
  | 0, _ :: _, acc => ([], acc.reverse)
  | fuel + 1, b :: rest, acc =>
    match rest with
    | ':' :: rest2 =>
      if isBreak b then
        let nr := takeName rest2
        if nr.1 = [] then
          -- no name character: the regexp cannot match here, keep scanning
          scanTemplateF fuel (':' :: rest2) (b :: acc)
        else
          let brk := match nr.2 with
            | [] => '/'
            | c :: _ => c
          let more := scanTemplateF fuel nr.2 []
          ((acc.reverse ++ [b], nr.1, brk) :: more.1, more.2)
      else scanTemplateF fuel (':' :: rest2) (b :: acc)
    | _ => scanTemplateF fuel rest (b :: acc)

/-- Left-to-right scan entry point: the scanner consumes at least one
character whenever it recurses, so `cs.length` fuel is always enough. -/
def scanTemplate (cs : List Char) (acc : List Char) :
    List (List Char × List Char × Char) × List Char :=
  scanTemplateF cs.length cs acc

/-- Whether the template ends in `/*` (wildcard suffix). -/
def hasWildcardSuffix (cs : List Char) : Bool :=
  match cs.reverse with
  | '*' :: '/' :: _ => true
  | _ => false

/-- Go `ParseStringPattern`: strip a trailing `*` when the template ends in
`/*`, then decompose into variable names, break characters and literals
(always one more literal than variables). -/
def parseStringChars (s : List Char) : StringPattern :=
  let wildcard := hasWildcardSuffix s
  let s' := if wildcard then s.dropLast else s
  let scanned := scanTemplate s' []
  { raw := s
    pats := scanned.1.map (fun t => t.2.1)
    breaks := scanned.1.map (fun t => t.2.2)
    literals := scanned.1.map (fun t => t.1) ++ [scanned.2]
    wildcard := wildcard }

/-- String-level wrapper for `ParseStringPattern`. -/
def parseStringPattern (s : String) : StringPattern :=
  parseStringChars s.toList

/-- The greedy forward scan of `StringPattern.match`: consume characters
until the variable's break character or `/`; returns the consumed run and
the rest. -/
def takeUntilBreak (bc : Char) : List Char → List Char × List Char
  | [] => ([], [])
  | c :: rest =>
    if c = bc || c = '/' then ([], c :: rest)
    else
      let (t, r) := takeUntilBreak bc rest
      (c :: t, r)

/-- The variable-consuming loop of `StringPattern.match`: for each
variable, the path must start with the preceding literal; strip it, scan
greedily to the break character, fail on a zero-length scan, bind the
name, advance.  Returns the remaining path and the bindings. -/
def matchVars : List (List Char) → List Char → List (List Char) →
    List Char → UrlMap → Option (List Char × UrlMap)
  | [], _, _, path, m => some (path, m)
  | pat :: pats, bc :: bcs, lit :: lits, path, m =>
    if lit.isPrefixOf path then
      let path' := path.drop lit.length
      let tv := takeUntilBreak bc path'
      if tv.1 = [] then
        -- Empty strings are not matches (a route like "/:foo" must not
        -- match the path "/")
        none
      else matchVars pats bcs lits tv.2 (mapInsert m pat tv.1)
    else none
  | _, _, _, _, _ => none

/-- Go `StringPattern.match` without the dry-run allocation optimisation:
returns the bound parameter map on success.  (The Go code only builds the
map when not dry-running; the boolean outcome is identical.)

The final literal always exists for parsed patterns (`literals` has one
more entry than `pats`); in wildcard mode the path must start with it and
`*` is bound from one character before the unmatched tail; otherwise the
remainder must equal it exactly. -/
def smatch (p : StringPattern) (path : List Char) : Option UrlMap :=
  match matchVars p.pats p.breaks p.literals path [] with
  | none => none
  | some (rest, m) =>
    let tail := p.literals.getD p.pats.length []
    if p.wildcard then
      if tail.isPrefixOf rest then
        -- matches["*"] = path[len(tail)-1:]  (parsed wildcard patterns
        -- always have a nonempty final literal ending in '/')
        some (mapInsert m ['*'] (rest.drop (tail.length - 1)))
      else none
    else if rest = tail then some m
    else none

/-- Go `StringPattern.match` with the context-pointer and dry-run plumbing of
the Go source: a `none` context or a dry run never touches the context;
otherwise a successful match overlays the bound parameters. -/
def StringPattern.matchGo (p : StringPattern) (path : List Char)
    (c : Option Ctx) (dryrun : Bool) : Bool × Option Ctx :=
  match smatch p path with
  | none => (false, c)
  | some m =>
    match c with
    | none => (true, none)
    | some ctx =>
      if dryrun then (true, some ctx)
      else (true, some (setURLParams ctx m))

/-- Go `StringPattern.Match`: `s.match(r, nil, true)`. -/
def StringPattern.MatchB (p : StringPattern) (path : List Char) : Bool :=
  (p.matchGo path none true).1

/-- Go `StringPattern.Run`: `s.match(r, c, false)`, keeping the context. -/
def StringPattern.RunC (p : StringPattern) (path : List Char) (c : Ctx) : Ctx :=
  match (p.matchGo path (some c) false).2 with
  | some ctx => ctx
  | none => c

/-! ## Regexp patterns (RegexpPattern)

The compiled regular expression itself is external to the repository
(Go's `regexp` package); it is modelled as an oracle `find` returning
what `re.FindStringSubmatch(path)` returns: `none` for no match, or the
list of submatches (index 0 the whole match, and — exactly as in Go — a
group that did not participate reported as the empty string).  The code
of `RegexpPattern.match` and `ParseRegexpPattern` is embedded faithfully
on top of that oracle. -/

/-- Go `RegexpPattern`: the wrapped expression (as its `FindStringSubmatch`
behaviour), the statically derived literal prefix, and the capture-group
names (index 0 is the whole-match pseudo-group). -/
structure RegexpPattern where
  find : List Char → Option (List (List Char))
  pfx : List Char
  names : List (List Char)

/-- The parameter-building loop of `RegexpPattern.match`:
`for i := 1; i < len(matches); i++ { params[p.names[i]] = matches[i] }`.
(Parsed patterns always have `names` and `matches` of equal length.) -/
def buildParams (names ms : List (List Char)) : UrlMap :=
  ((names.zip ms).drop 1).foldl (fun m nv => mapInsert m nv.1 nv.2) []

/-- Go `RegexpPattern.match` with its context-pointer and dry-run plumbing:
fail when the oracle reports no match; succeed without touching the
context when the context is nil, the run is dry, or there are no capture
groups; otherwise overlay the name-to-submatch map onto the context. -/
def RegexpPattern.matchGo (p : RegexpPattern) (path : List Char)
    (c : Option Ctx) (dryrun : Bool) : Bool × Option Ctx :=
  match p.find path with
  | none => (false, c)
  | some ms =>
    if ms.length = 0 then (false, c)
    else
      match c with
      | none => (true, none)
      | some ctx =>
        if dryrun || ms.length = 1 then (true, some ctx)
        else (true, some (setURLParams ctx (buildParams p.names ms)))

/-- Go `RegexpPattern.Match`: the source passes the live context and
`dryrun = false` (`return p.match(r, c, false)`). -/
def RegexpPattern.MatchGoB (p : RegexpPattern) (path : List Char)
    (c : Option Ctx) : Bool × Option Ctx :=
  p.matchGo path c false

/-- Go `RegexpPattern.Run`: `p.match(r, c, false)`, keeping the context. -/
def RegexpPattern.RunC (p : RegexpPattern) (path : List Char) (c : Ctx) : Ctx :=
  match (p.matchGo path (some c) false).2 with
  | some ctx => ctx
  | none => c

/-- The synthetic name for unnamed group `i`: the string `$i`. -/
def synthName (i : Nat) : List Char :=
  '$' :: (Nat.repr i).toList

/-- Go `ParseRegexpPattern`: copy the expression's subexp names, replacing
each unnamed group (empty name) at index `i` by the synthetic name `$i`.
The anchoring rewrite and prefix extraction of `sketchOnRegex` operate on
the external regexp engine and are part of the oracle here (`find`,
`pfx`). -/
def parseRegexpPattern (find : List Char → Option (List (List Char)))
    (pfx : List Char) (rnames : List (List Char)) : RegexpPattern :=
  { find := find
    pfx := pfx
    names := rnames.mapIdx (fun i rname => if rname = [] then synthName i else rname) }

/-! ## Pattern dispatch (ParsePattern, router pattern.go)

`ParsePattern` accepts an existing `Pattern` value, a `*regexp.Regexp`,
or a string template; any other type is a construction-time panic,
modelled as `Except.error`. -/

/-- A parsed pattern value (the closed set of built-in implementations). -/
inductive ParsedPattern where
  | str (p : StringPattern)
  | re (p : RegexpPattern)

/-- The `types.PatternType` argument of `ParsePattern`: a value that is
already a `Pattern`, a regexp object (its oracle data), a template
string, or a value of some other type (identified by its type name). -/
inductive PatternType where
  | pat (p : ParsedPattern)
  | regex (find : List Char → Option (List (List Char)))
      (pfx : List Char) (rnames : List (List Char))
  | str (s : String)
  | other (tyName : String)

/-- Go `ParsePattern`: dispatch on the dynamic type; unknown types panic
(modelled as `Except.error` carrying the diagnostic). -/
def parsePatternE : PatternType → Except String ParsedPattern
  | .pat p => .ok p
  | .regex find pfx rnames => .ok (.re (parseRegexpPattern find pfx rnames))
  | .str s => .ok (.str (parseStringPattern s))
  | .other tyName => .error ("Unknown pattern type " ++ tyName)

/-! ## Middleware stack (middleware package)

`MiddlewareStack` owns the (canonicalized) middleware list, a base
context, and a `sync.Pool` of pre-built chains.  The pool is modelled
deterministically: `gen` identifies the current pool object (bumped by
every `resetPool`), `pool` is its free list.  A `StackItem` records its
context slot, the generation it may return to (`poolTag`, the Go `pool`
field), and — as ghost data standing for the composed `Handler` closure —
the middleware list it was built from. -/

/-- A pooled chain (`StackItem`): its context slot, the pool generation
it can be returned to, and the middleware list its handler was composed
from (ghost data for the `Handler` closure). -/
structure StackItem (α : Type) where
  ctx : Ctx
  poolTag : Option Nat
  builtFrom : List α
  deriving Repr, DecidableEq

/-- The middleware stack: current middleware list, base context, and the
current pool (generation number plus free list).  Middleware values are
identity values of type `α`, so the parallel Go lists `orig` (raw values,
searched by identity in `Remove`) and `funcs` (their canonical forms,
kept index-aligned) collapse into the single list `funcs`. -/
structure MWStack (α : Type) where
  funcs : List α
  baseCtx : Ctx
  gen : Nat
  pool : List (StackItem α)
  deriving Repr, DecidableEq

/-- Go `New`: push the initial middleware, then install a fresh pool. -/
def mwNew {α : Type} (mws : List α) : MWStack α :=
  { funcs := mws, baseCtx := none, gen := 0, pool := [] }

/-- Go `newResolved`: build a fresh chain from the current middleware list,
with its context initialised to the base context and its pool pointer at
the current pool. -/
def MWStack.newResolved {α : Type} (m : MWStack α) : StackItem α :=
  { ctx := m.baseCtx, poolTag := some m.gen, builtFrom := m.funcs }

/-- Go `Get`: take a chain from the current pool (or build one when the pool
is empty) and point its `pool` field at the current pool. -/
def MWStack.get {α : Type} (m : MWStack α) : StackItem α × MWStack α :=
  match m.pool with
  | [] => (m.newResolved, m)
  | i :: rest => ({ i with poolTag := some m.gen }, { m with pool := rest })

/-- Go `resetPool`: swap in an entirely new, empty pool. -/
def MWStack.resetPool {α : Type} (m : MWStack α) : MWStack α :=
  { m with gen := m.gen + 1, pool := [] }

/-- Go `Push`: append the middleware, then invalidate the pool (the whole
sequence runs under the stack's mutex). -/
def MWStack.push {α : Type} (m : MWStack α) (mw : α) : MWStack α :=
  ({ m with funcs := m.funcs ++ [mw] }).resetPool

/-- Go `Remove`: locate the first middleware equal to the argument; not
found returns `ErrMiddlewareNotFound` leaving the stack (and pool)
untouched; otherwise remove it and invalidate the pool. -/
def MWStack.remove {α : Type} [DecidableEq α] (m : MWStack α) (mw : α) :
    Except Unit (MWStack α) :=
  match m.funcs.indexOf? mw with
  | none => .error ()
  | some i =>
    .ok ({ m with funcs := m.funcs.take i ++ m.funcs.drop (i + 1) }).resetPool

/-- Go `Release`: reset the item's context slot to the base context; return
it to its pool only if that is still the current pool, otherwise discard
it (`if s.pool != m.cache { return }`). -/
def MWStack.release {α : Type} (m : MWStack α) (s : StackItem α) : MWStack α :=
  let s1 := { s with ctx := m.baseCtx }
  if s1.poolTag = some m.gen then
    { m with pool := { s1 with poolTag := none } :: m.pool }
  else m

/-! ### Chain composition (newResolved's wrapping loop)

`newResolved` composes the handler by iterating the middleware list
backwards: `for i := len(m.funcs) - 1; i >= 0; i-- { h = m.funcs[i](h) }`.
For the ordering theorems the canonical middleware is semantic: a
function from inner handler to wrapping handler, where a handler maps a
request to the trace of events it produces.  (The context-pointer
argument of `canonicalMiddleware` is orthogonal to composition order and
omitted here.) -/

/-- Events observable from a composed chain. -/
inductive Ev where
  | pre (label : Nat)
  | final
  deriving Repr, DecidableEq

/-- Request: an HTTP method and a path. -/
structure Request where
  method : String
  path : List Char
  deriving Repr, DecidableEq

/-- A handler as its observable behaviour: request to event trace. -/
abbrev HTrace := Request → List Ev

/-- The backwards wrapping loop of `newResolved`: apply `funcs[i]` for
`i` from the end of the list down to `0`. -/
def composeLoop (funcs : List (HTrace → HTrace)) (final : HTrace) : HTrace :=
  funcs.reverse.foldl (fun h f => f h) final

/-- A middleware that emits its label (its pre-logic) and then invokes
the inner handler. -/
def preMW (label : Nat) : HTrace → HTrace :=
  fun h r => Ev.pre label :: h r

/-! ### Stack/pool state machine

A configuration pairs the stack with the chains currently checked out.
Steps are the stack's public operations; `mutate` models middleware or
`Run` writing through a checked-out chain's context pointer during a
request. -/

/-- A middleware stack together with its checked-out chains. -/
structure MWConfig (α : Type) where
  stack : MWStack α
  outstanding : List (StackItem α)

/-- The states reachable from `New` through the stack's API. -/
inductive MWReach {α : Type} [DecidableEq α] : MWConfig α → Prop where
  | new (mws : List α) : MWReach ⟨mwNew mws, []⟩
  | push (cfg : MWConfig α) (mw : α) (h : MWReach cfg) :
      MWReach ⟨cfg.stack.push mw, cfg.outstanding⟩
  | removeOk (cfg : MWConfig α) (mw : α) (m : MWStack α) (h : MWReach cfg)
      (hr : cfg.stack.remove mw = .ok m) :
      MWReach ⟨m, cfg.outstanding⟩
  | get (cfg : MWConfig α) (h : MWReach cfg) :
      MWReach ⟨(cfg.stack.get).2, (cfg.stack.get).1 :: cfg.outstanding⟩
  | release (s : StackItem α) (pre post : List (StackItem α)) (stack : MWStack α)
      (h : MWReach ⟨stack, pre ++ s :: post⟩) :
      MWReach ⟨stack.release s, pre ++ post⟩
  | mutate (s : StackItem α) (c : Ctx) (pre post : List (StackItem α))
      (stack : MWStack α) (h : MWReach ⟨stack, pre ++ s :: post⟩) :
      MWReach ⟨stack, pre ++ { s with ctx := c } :: post⟩

/-- The pool invariant: every pooled chain was built from the current
middleware list, has its pool pointer cleared and its context reset; and
every checked-out chain tagged with the current generation was built from
the current middleware list (older tags can never equal a future
generation, so stale chains are never re-pooled). -/
def poolInv {α : Type} (cfg : MWConfig α) : Prop :=
  (∀ it ∈ cfg.stack.pool,
    it.builtFrom = cfg.stack.funcs ∧ it.poolTag = none ∧ it.ctx = cfg.stack.baseCtx) ∧
  (∀ it ∈ cfg.outstanding, ∀ g, it.poolTag = some g →
    g ≤ cfg.stack.gen ∧ (g = cfg.stack.gen → it.builtFrom = cfg.stack.funcs))

/-! ## Router dispatch (router/simple/simple.go)

The router holds `Pattern` interface values; a pattern is therefore
modelled by its two interface methods, a pure `Match` and a
context-binding `Run`. -/

/-- A `Pattern` interface value as seen by the router. -/
structure MPattern where
  mtch : Request → Bool
  runp : Request → Ctx → Ctx

/-- A route of the simple router: parsed pattern, handler (identified by
a label), and the route's own middleware stack. -/
structure SRoute where
  pat : MPattern
  handler : Nat
  mware : MWStack Nat

/-- One dispatch over the routes for a method (the dispatch loop of `ServeHTTP`): scan
in registration order; at the first match, check a chain out of the
route's stack, `Run` the pattern into the chain's context, invoke the
chain's handler with that context, release the chain, and stop.  Returns
the invocations performed (handler label and the context it ran in), the
updated route list, and the `found` flag. -/
def serveList : List SRoute → Request → List (Nat × Ctx) × List SRoute × Bool
  | [], _ => ([], [], false)
  | rt :: rest, r =>
    if rt.pat.mtch r then
      let gm := rt.mware.get
      let bound := rt.pat.runp r gm.1.ctx
      let released := gm.2.release { gm.1 with ctx := bound }
      ([(rt.handler, bound)], { rt with mware := released } :: rest, true)
    else
      let res := serveList rest r
      (res.1, rt :: res.2.1, res.2.2)

/-- The simple router: routes grouped by method (registration order kept
within each method), plus the optional not-found handler's label. -/
structure SimpleRouter where
  routes : List (String × List SRoute)
  notFound : Option Nat

/-- Go `s.routes[r.Method]`: the method's route list, empty when absent. -/
def routesFor (s : SimpleRouter) (method : String) : List SRoute :=
  match s.routes.lookup method with
  | some rs => rs
  | none => []

/-- Go `ServeHTTP`: dispatch over the method's routes; when nothing matched,
fall through to the not-found handler (with a background context) or the
standard not-found response. -/
def serveHTTP (s : SimpleRouter) (r : Request) :
    List (Nat × Ctx) × List SRoute × Bool :=
  serveList (routesFor s r.method) r

/-! ## Route builder (builder package)

Builder nodes live in a store and are addressed by stable identifiers
(standing for Go's pointer identity, which the traversal's `seen` map is
keyed on).  `walk` is the recursive closure of `RouteDefs`: fuel-indexed so the
cyclic case is expressible; the cycle panic and the untypable-node panic
become `Except.error`. -/

/-- A flattened route definition (`builder.RouteDef`). -/
structure RouteDef where
  method : String
  pattern : String
  handler : Nat
  middleware : List Nat
  deriving Repr, DecidableEq

/-- One entry of a node's `specs` array: a concrete route, or an attached
child node with its inherit flag. -/
inductive BSpec where
  | route (method pattern : String) (handler : Nat)
  | sub (inherit : Bool) (child : Nat)
  deriving Repr, DecidableEq

/-- A builder node: its ordered specs and its own middleware list. -/
structure BNode where
  specs : List BSpec
  middleware : List Nat
  deriving Repr, DecidableEq

/-- The node store: node identity is the index. -/
abbrev BStore := List BNode

/-- Flattening errors: the cycle panic, the missing-node case (impossible
with Go pointers), and fuel exhaustion (never reached with enough fuel). -/
inductive BErr where
  | cycle
  | badNode
  | noFuel
  deriving Repr, DecidableEq

/-- The per-node spec loop of `walk`: emit each direct route with
`inherited ++ own` middleware; recurse into a sub-builder with
`inherited ++ own` when it inherits and with the empty list when it is
mounted.  `walkChild` is the traversal continuation; the `seen` set
threads through the whole traversal exactly like the Go map. -/
def walkSpecs
    (walkChild : Nat → List Nat → List Nat → Except BErr (List RouteDef × List Nat)) :
    List BSpec → List Nat → List Nat → List Nat →
    Except BErr (List RouteDef × List Nat)
  | [], _, _, seen => .ok ([], seen)
  | .route meth pat h :: rest, own, inherited, seen =>
    match walkSpecs walkChild rest own inherited seen with
    | .error e => .error e
    | .ok tl => .ok (⟨meth, pat, h, inherited ++ own⟩ :: tl.1, tl.2)
  | .sub inh child :: rest, own, inherited, seen =>
    match walkChild child seen (if inh then inherited ++ own else []) with
    | .error e => .error e
    | .ok sub =>
      match walkSpecs walkChild rest own inherited sub.2 with
      | .error e => .error e
      | .ok tl => .ok (sub.1 ++ tl.1, tl.2)

/-- The recursive walk of Go `RouteDefs`: panic (error) when a node is revisited,
otherwise mark it seen and process its specs. -/
def walk (store : BStore) : Nat → Nat → List Nat → List Nat →
    Except BErr (List RouteDef × List Nat)
  | 0, _, _, _ => .error .noFuel
  | fuel + 1, bid, seen, inherited =>
    if seen.contains bid then .error .cycle
    else
      match store.get? bid with
      | none => .error .badNode
      | some b => walkSpecs (walk store fuel) b.specs b.middleware inherited (bid :: seen)

/-- Go `RouteDefs`: walk from the root with no inherited middleware.  The
traversal visits each node at most once before failing, so
`store.length + 1` fuel is always sufficient. -/
def routeDefs (store : BStore) (root : Nat) : Except BErr (List RouteDef) :=
  (walk store (store.length + 1) root [] []).map (·.1)

/-- The child relation of the builder graph: node `b` is attached (with
either flag) in one of the specs of node `a`. -/
def bEdge (store : BStore) (a b : Nat) : Prop :=
  ∃ node, store.get? a = some node ∧ ∃ inh, BSpec.sub inh b ∈ node.specs

/-- A two-node cyclic builder store: node 0 attaches node 1, which
attaches node 0 again. -/
def cycleStore : BStore :=
  [⟨[.sub true 1], []⟩, ⟨[.sub true 0], []⟩]

/-- Spec-side definition, following the words of the spec rather than the
flatten code, for comparison with it: `AncestorChainMW store a mwA n mwN`
says node `n` is attached under node `a` (through zero or more
`Group`/`Route`/`Mount` edges), and when `a` itself inherits the
middleware list `mwA`, node `n` inherits `mwN`: each inheriting edge
appends the parent node's own middleware after the middleware the parent
inherited (ancestor-first ordering), while a non-inheriting (`Mount`)
edge resets the inherited list to empty, so only middleware registered
inside the mounted subtree accumulates below it. -/
inductive AncestorChainMW (store : BStore) (a : Nat) (mwA : List Nat) :
    Nat → List Nat → Prop where
  | refl : AncestorChainMW store a mwA a mwA
  | step {b c : Nat} {mwB : List Nat} {node : BNode} {inh : Bool} :
      AncestorChainMW store a mwA b mwB →
      store.get? b = some node →
      BSpec.sub inh c ∈ node.specs →
      AncestorChainMW store a mwA c (if inh then mwB ++ node.middleware else [])

/-- A small acyclic builder store for concrete evaluation: node 0
(middleware `[1]`) holds a route and an inheriting child, node 1
(middleware `[2]`) holds a route. -/
def twoNodeStore : BStore :=
  [⟨[.route "GET" "/a" 0, .sub true 1], [1]⟩,
   ⟨[.route "GET" "/b" 1], [2]⟩]

/-! ## Concrete regexp oracles

Instances of the external `FindStringSubmatch` behaviour for specific
regular expressions, used to evaluate the embedded pattern code on
concrete requests.  Each follows Go's documented semantics: the leftmost
match, with a capture group that did not participate reported as the
empty string. -/

/-- Go `FindStringSubmatch` of `^/hello/(?P<name>[a-z]+)$`: the path is
`/hello/` followed by one or more lowercase letters; group 1 captures the
letters. -/
def helloFind (path : List Char) : Option (List (List Char)) :=
  if "/hello/".toList.isPrefixOf path then
    let rest := path.drop 7
    if rest ≠ [] ∧ rest.all (fun c => decide ('a' ≤ c) && decide (c ≤ 'z')) then
      some [path, rest]
    else none
  else none

/-- The parsed pattern for `^/hello/(?P<name>[a-z]+)$`: prefix `/hello/`,
subexp names `["", "name"]`. -/
def helloRe : RegexpPattern :=
  parseRegexpPattern helloFind "/hello/".toList [[], "name".toList]

/-- Go `FindStringSubmatch` of `^/(?:a(?P<x>b)|c(?P<y>d))`: on a path
starting with `/ab`, group `x` captures `b` and group `y` does not
participate; on a path starting with `/cd`, group `y` captures `d` and
group `x` does not participate.  Go reports a non-participating group as
the empty string. -/
def optFind (path : List Char) : Option (List (List Char)) :=
  match path with
  | '/' :: 'a' :: 'b' :: _ => some ["/ab".toList, ['b'], []]
  | '/' :: 'c' :: 'd' :: _ => some ["/cd".toList, [], ['d']]
  | _ => none

/-- The parsed pattern for `^/(?:a(?P<x>b)|c(?P<y>d))`: subexp names
`["", "x", "y"]`. -/
def cexRe : RegexpPattern :=
  parseRegexpPattern optFind ['/'] [[], ['x'], ['y']]

/-! ## Concrete router instance

A two-route router whose patterns both match every request, used to
evaluate first-match-wins dispatch on a concrete input. -/

/-- A pattern that matches every request and binds nothing. -/
def alwaysPat : MPattern :=
  { mtch := fun _ => true, runp := fun _ c => c }

/-- A router with two always-matching GET routes (handlers 0 and 1). -/
def twoRouteRouter : SimpleRouter :=
  { routes := [("GET", [⟨alwaysPat, 0, mwNew []⟩, ⟨alwaysPat, 1, mwNew []⟩])]
    notFound := none }

/-- A concrete GET request. -/
def getReq : Request := ⟨"GET", "/x".toList⟩

/-! ## Helper lemmas -/

theorem mapLookup_mapInsert_self (m : UrlMap) (k v : List Char) :
    mapLookup (mapInsert m k v) k = some v := by
  induction m with
  | nil => simp [mapInsert, mapLookup]
  | cons kv rest ih =>
    simp only [mapInsert]
    split
    · simp [mapLookup]
    · simp [mapLookup, *]

theorem mapLookup_mapInsert_ne (m : UrlMap) (k v k' : List Char) (h : k' ≠ k) :
    mapLookup (mapInsert m k v) k' = mapLookup m k' := by
  induction m with
  | nil => simp [mapInsert, mapLookup, Ne.symm h]
  | cons kv rest ih =>
    simp only [mapInsert]
    split
    · rename_i hk
      simp [mapLookup, hk, h, Ne.symm h]
    · simp [mapLookup, ih]

theorem takeUntilBreak_snd_suffix (bc : Char) (l : List Char) :
    (takeUntilBreak bc l).2 <:+ l := by
  induction l with
  | nil => simp [takeUntilBreak]
  | cons c rest ih =>
    simp only [takeUntilBreak]
    split
    · exact List.suffix_refl _
    · exact ih.trans (List.suffix_cons c rest)

theorem matchVars_rest_suffix :
    ∀ (pats : List (List Char)) (bcs : List Char) (lits : List (List Char))
      (path : List Char) (m : UrlMap) (rest : List Char) (m2 : UrlMap),
      matchVars pats bcs lits path m = some (rest, m2) → rest <:+ path := by
  intro pats
  induction pats with
  | nil =>
    intro bcs lits path m rest m2 h
    simp only [matchVars, Option.some.injEq, Prod.mk.injEq] at h
    rw [h.1]
  | cons pat pats ih =>
    intro bcs lits path m rest m2 h
    match bcs, lits with
    | [], _ => simp [matchVars] at h
    | _ :: _, [] => simp [matchVars] at h
    | bc :: bcs, lit :: lits =>
      simp only [matchVars] at h
      split at h
      · split at h
        · exact absurd h (by simp)
        · have hrec := ih bcs lits _ _ _ _ h
          exact (hrec.trans ((takeUntilBreak_snd_suffix bc _).trans
            (List.drop_suffix lit.length path)))
      · exact absurd h (by simp)

/-- Folding overwriting inserts over pairs whose keys avoid `k` leaves
the lookup of `k` unchanged. -/
theorem mapLookup_foldl_insert_not_mem
    (l : List (List Char × List Char)) (m : UrlMap) (k : List Char)
    (h : k ∉ l.map Prod.fst) :
    mapLookup (l.foldl (fun m nv => mapInsert m nv.1 nv.2) m) k = mapLookup m k := by
  induction l generalizing m with
  | nil => simp
  | cons nv rest ih =>
    simp only [List.map_cons, List.mem_cons] at h
    push_neg at h
    simp only [List.foldl_cons]
    rw [ih _ h.2, mapLookup_mapInsert_ne _ _ _ _ h.1]

/-- Folding overwriting inserts over pairs with pairwise-distinct keys
binds each pair's key to its value. -/
theorem mapLookup_foldl_insert_mem
    (l : List (List Char × List Char)) (m : UrlMap) (k v : List Char)
    (hmem : (k, v) ∈ l) (hnd : (l.map Prod.fst).Nodup) :
    mapLookup (l.foldl (fun m nv => mapInsert m nv.1 nv.2) m) k = some v := by
  induction l generalizing m with
  | nil => simp at hmem
  | cons nv rest ih =>
    simp only [List.map_cons, List.nodup_cons] at hnd
    simp only [List.mem_cons] at hmem
    rcases hmem with h | h
    · subst h
      simp only [List.foldl_cons]
      rw [mapLookup_foldl_insert_not_mem _ _ _ (by simpa using hnd.1)]
      exact mapLookup_mapInsert_self _ _ _
    · simpa using ih _ h hnd.2

theorem mapIdx_getD (l : List (List Char)) (f : Nat → List Char → List Char)
    (i : Nat) (hi : i < l.length) :
    (l.mapIdx f).getD i [] = f i (l.getD i []) := by
  have hi' : i < (l.mapIdx f).length := by
    simp [List.length_mapIdx, hi]
  rw [List.getD_eq_getElem _ _ hi', List.getD_eq_getElem _ _ hi]
  have h := List.get_mapIdx l f i hi
  simp only [List.get_eq_getElem] at h
  exact h

/-! ## Claim theorems -/

/-- Claim C4: for every template pattern and every path, a zero-length
greedy scan at any variable position (forward until the variable's break
character or `/`) fails the whole match; in particular the pattern
`/:foo` never matches the path `/`. -/
theorem claim_C4_empty_scan_fails :
    (∀ (pat : List Char) (pats : List (List Char)) (bc : Char) (bcs : List Char)
       (lit : List Char) (lits : List (List Char)) (path : List Char) (m : UrlMap),
       lit.isPrefixOf path = true →
       (takeUntilBreak bc (path.drop lit.length)).1 = [] →
       matchVars (pat :: pats) (bc :: bcs) (lit :: lits) path m = none) ∧
    smatch (parseStringPattern "/:foo") "/".toList = none ∧
    (parseStringPattern "/:foo").MatchB "/".toList = false := by
  refine ⟨?_, by decide, by decide⟩
  intro pat pats bc bcs lit lits path m hpre hscan
  simp [matchVars, hpre, hscan]

/-- Witness for `claim_C4_empty_scan_fails` at the `/:foo` vs `/`
instance: the preceding literal `/` is a prefix of the path `/`, the
greedy scan then consumes zero characters, and the match is rejected. -/
theorem claim_C4_witness :
    ("/".toList.isPrefixOf "/".toList = true) ∧
    ((takeUntilBreak '/' ("/".toList.drop "/".toList.length)).1 = []) ∧
    matchVars ["foo".toList] ['/'] ["/".toList, []] "/".toList [] = none := by
  refine ⟨by decide, by decide, ?_⟩
  exact claim_C4_empty_scan_fails.1 "foo".toList [] '/' [] "/".toList [[]]
    "/".toList [] (by decide) (by decide)

/-- Claim C5: wildcard template patterns.  `/user/:user/*` matches
`/user/bob/` binding `user=bob` and `*=/`; matches `/user/bob/friends/123`
binding `*=/friends/123`; does not match `/user/bob` (no trailing
content).  Moreover, for every wildcard pattern, any successful match
binds the special key `*`, and the bound value is a suffix of the path
starting one character before the unmatched tail (the drop index
`len(tail) - 1` of the remaining path). -/
theorem claim_C5_wildcard :
    smatch (parseStringPattern "/user/:user/*") "/user/bob/".toList =
      some [("user".toList, "bob".toList), (['*'], "/".toList)] ∧
    smatch (parseStringPattern "/user/:user/*") "/user/bob/friends/123".toList =
      some [("user".toList, "bob".toList), (['*'], "/friends/123".toList)] ∧
    smatch (parseStringPattern "/user/:user/*") "/user/bob".toList = none ∧
    (∀ (p : StringPattern) (path : List Char) (m : UrlMap),
      p.wildcard = true → smatch p path = some m →
      ∃ v, mapLookup m ['*'] = some v ∧ v <:+ path) := by
  refine ⟨by decide, by decide, by decide, ?_⟩
  intro p path m hw hm
  rcases heq : matchVars p.pats p.breaks p.literals path [] with _ | ⟨rest, mm⟩
  · simp [smatch, heq] at hm
  · simp only [smatch, heq, hw, if_true] at hm
    split at hm
    · simp only [Option.some.injEq] at hm
      subst hm
      refine ⟨_, mapLookup_mapInsert_self _ _ _, ?_⟩
      exact (List.drop_suffix _ _).trans (matchVars_rest_suffix _ _ _ _ _ _ _ heq)
    · exact absurd hm (by simp)

/-- Witness for the universally quantified part of `claim_C5_wildcard` at the
`/user/:user/*` vs `/user/bob/friends/123` instance: the match succeeds
and `*` is bound to a suffix of the path. -/
theorem claim_C5_witness :
    ∃ v, mapLookup [("user".toList, "bob".toList), (['*'], "/friends/123".toList)]
        ['*'] = some v ∧ v <:+ "/user/bob/friends/123".toList :=
  claim_C5_wildcard.2.2.2 (parseStringPattern "/user/:user/*")
    "/user/bob/friends/123".toList
    [("user".toList, "bob".toList), (['*'], "/friends/123".toList)]
    (by decide) (by decide)

/-- Claim C10 counterexample: a template string outside the spec's
variable grammar (a bare `:x` with no preceding break character) is
accepted silently — `ParsePattern`/`ParseStringPattern` return a pattern
(the whole text one literal, no variables) instead of aborting
construction. -/
theorem claim_C10_counterexample :
    parsePatternE (.str ":x") = .ok (.str (parseStringPattern ":x")) ∧
    parseStringPattern ":x" = ⟨":x".toList, [], [], [":x".toList], false⟩ :=
  ⟨rfl, by decide⟩

/-- Claim C10 (amended): template-pattern construction is total — every
string is accepted, and unrecognised syntax becomes literal text; the
construction-time fatal for patterns is the panic of `ParsePattern` on a value
of unknown dynamic type. -/
theorem claim_C10_construction :
    (∀ s : String, parsePatternE (.str s) = .ok (.str (parseStringPattern s))) ∧
    (∀ t : String, parsePatternE (.other t) = .error ("Unknown pattern type " ++ t)) :=
  ⟨fun _ => rfl, fun _ => rfl⟩

/-- Claim C3 counterexample: for the pattern `^/(?:a(?P<x>b)|c(?P<y>d))`
and path `/cd`, group `x` does not participate in the match, yet `Run`
binds it (to the empty string) instead of omitting it from the
URL-parameter map. -/
theorem claim_C3_counterexample :
    cexRe.RunC "/cd".toList none = some [(['x'], []), (['y'], ['d'])] ∧
    mapLookup [(['x'], []), (['y'], ['d'])] ['x'] = some [] := by
  constructor <;> decide

/-- Claim C3 (amended): for every regexp pattern and every request whose
path matches with at least one capture group, `Run` binds every capture
group except group 0 — under its declared name, or the synthetic name
`$i` for the unnamed group of index `i` — to Go's reported submatch; a
group that did not participate is bound to the empty string rather than
omitted. -/
theorem claim_C3_regexp_run_bindings
    (find : List Char → Option (List (List Char))) (pfx : List Char)
    (rnames : List (List Char)) (path : List Char) (c : Ctx)
    (ms : List (List Char))
    (hfind : find path = some ms) (h2 : 2 ≤ ms.length)
    (hlen : rnames.length = ms.length) :
    ((parseRegexpPattern find pfx rnames).RunC path c =
      some (buildParams (parseRegexpPattern find pfx rnames).names ms)) ∧
    (∀ i, i < rnames.length →
      (parseRegexpPattern find pfx rnames).names.getD i [] =
        if rnames.getD i [] = [] then synthName i else rnames.getD i []) ∧
    ((parseRegexpPattern find pfx rnames).names.Nodup →
      ∀ i, 1 ≤ i → i < ms.length →
        mapLookup (buildParams (parseRegexpPattern find pfx rnames).names ms)
          ((parseRegexpPattern find pfx rnames).names.getD i []) =
          some (ms.getD i [])) := by
  have hnlen : (parseRegexpPattern find pfx rnames).names.length = ms.length := by
    simp [parseRegexpPattern, List.length_mapIdx, hlen]
  refine ⟨?_, ?_, ?_⟩
  · have h0 : ¬ ms = [] := by
      intro h
      rw [h] at h2
      simp at h2
    have h1 : ¬ ms.length = 1 := by omega
    simp [RegexpPattern.RunC, RegexpPattern.matchGo, parseRegexpPattern, hfind,
      h0, h1, setURLParams]
  · intro i hi
    simp only [parseRegexpPattern]
    exact mapIdx_getD rnames _ i hi
  · intro hnd i h1i hi
    obtain ⟨j, rfl⟩ : ∃ j, i = 1 + j := ⟨i - 1, by omega⟩
    set names := (parseRegexpPattern find pfx rnames).names with hnames
    have hzlen : (names.zip ms).length = ms.length := by
      simp only [List.length_zip, hnlen, Nat.min_self]
    have hidx : j < ((names.zip ms).drop 1).length := by
      simp only [List.length_drop, hzlen]
      omega
    have hmem : (names.getD (1 + j) [], ms.getD (1 + j) []) ∈ (names.zip ms).drop 1 := by
      rw [List.mem_iff_getElem]
      refine ⟨j, hidx, ?_⟩
      rw [List.getElem_drop, List.getElem_zip,
        List.getD_eq_getElem _ _ (show 1 + j < names.length by omega),
        List.getD_eq_getElem _ _ (show 1 + j < ms.length by omega)]
    have hkeys : (((names.zip ms).drop 1).map Prod.fst).Nodup := by
      have hkeq : (((names.zip ms).drop 1).map Prod.fst) = names.drop 1 := by
        rw [List.map_drop, List.map_fst_zip _ _ (by omega)]
      rw [hkeq]
      exact (List.drop_sublist 1 names).nodup hnd
    exact mapLookup_foldl_insert_mem _ _ _ _ hmem hkeys

/-- Witness for `claim_C3_regexp_run_bindings` at the pattern
`^/hello/([a-z]+)$` (one unnamed group, synthetic name `$1`) on the path
`/hello/world`. -/
theorem claim_C3_witness :
    (parseRegexpPattern helloFind "/hello/".toList [[], []]).RunC
        "/hello/world".toList none =
      some (buildParams (parseRegexpPattern helloFind "/hello/".toList [[], []]).names
        ["/hello/world".toList, "world".toList]) ∧
    mapLookup
        (buildParams (parseRegexpPattern helloFind "/hello/".toList [[], []]).names
          ["/hello/world".toList, "world".toList])
        ((parseRegexpPattern helloFind "/hello/".toList [[], []]).names.getD 1 []) =
      some (["/hello/world".toList, "world".toList].getD 1 []) := by
  have h := claim_C3_regexp_run_bindings helloFind "/hello/".toList [[], []]
    "/hello/world".toList none ["/hello/world".toList, "world".toList]
    (by decide) (by decide) (by decide)
  exact ⟨h.1, h.2.2 (by decide) 1 (by decide) (by decide)⟩

/-- Claim C2: a dry-run template match never touches the context — a
`StringPattern.Match` call (which passes `nil, true`) is pure, binding
only through `Run`; but `RegexpPattern.Match` in the source passes the
live context with `dryrun = false`, so on `^/hello/(?P<name>[a-z]+)$`
matching `/hello/world` the `Match` call itself writes the URL
parameters into the context, contradicting the `Pattern` interface's
purity contract. -/
theorem claim_C2_match_mutation :
    (∀ (p : StringPattern) (path : List Char) (c : Option Ctx),
      (p.matchGo path c true).2 = c) ∧
    (∀ (p : StringPattern) (path : List Char), p.MatchB path = (smatch p path).isSome) ∧
    (helloRe.MatchGoB "/hello/world".toList (some none) =
      (true, some (some [("name".toList, "world".toList)]))) ∧
    ((helloRe.MatchGoB "/hello/world".toList (some none)).2 ≠ some none) := by
  refine ⟨?_, ?_, by decide, by decide⟩
  · intro p path c
    rcases h : smatch p path with _ | m
    · simp [StringPattern.matchGo, h]
    · rcases c with _ | ctx <;> simp [StringPattern.matchGo, h]
  · intro p path
    rcases h : smatch p path with _ | m <;>
      simp [StringPattern.MatchB, StringPattern.matchGo, h]

/-- Claim C6: the composed chain applies the middleware list in reverse
registration order, so the first-pushed middleware is the outermost
wrapper; with `M1` then `M2` pushed in that order around terminal
handler `H`, dispatching a request runs the pre-logic of `M1`, then the
pre-logic of `M2`, then `H` (and each middleware, being an arbitrary wrapper,
controls whether it calls its inner handler). -/
theorem claim_C6_chain_order :
    (∀ (f : HTrace → HTrace) (fs : List (HTrace → HTrace)) (final : HTrace),
      composeLoop (f :: fs) final = f (composeLoop fs final)) ∧
    (∀ (labels : List Nat) (final : HTrace) (r : Request),
      composeLoop (labels.map preMW) final r = labels.map Ev.pre ++ final r) ∧
    (∀ (m1 m2 : Nat) (final : HTrace) (r : Request),
      composeLoop [preMW m1, preMW m2] final r =
        Ev.pre m1 :: Ev.pre m2 :: final r) := by
  have hcons : ∀ (f : HTrace → HTrace) (fs : List (HTrace → HTrace)) (final : HTrace),
      composeLoop (f :: fs) final = f (composeLoop fs final) := by
    intro f fs final
    simp [composeLoop, List.foldl_append]
  have hlabels : ∀ (labels : List Nat) (final : HTrace) (r : Request),
      composeLoop (labels.map preMW) final r = labels.map Ev.pre ++ final r := by
    intro labels
    induction labels with
    | nil => intro final r; simp [composeLoop]
    | cons l rest ih =>
      intro final r
      rw [List.map_cons, hcons]
      simp [preMW, ih]
  exact ⟨hcons, hlabels, fun m1 m2 final r => by
    have h := hlabels [m1, m2] final r
    simpa using h⟩

/-- An attachment chain can be extended at its top: a chain from a child
`c` (inheriting what the edge from `a` hands it) is a chain from `a`. -/
theorem AncestorChainMW.front {store : BStore} {a c n : Nat}
    {mwA mwN : List Nat} {node : BNode} {inh : Bool}
    (hget : store.get? a = some node) (hmem : BSpec.sub inh c ∈ node.specs)
    (h : AncestorChainMW store c (if inh then mwA ++ node.middleware else []) n mwN) :
    AncestorChainMW store a mwA n mwN := by
  induction h with
  | refl => exact AncestorChainMW.step AncestorChainMW.refl hget hmem
  | step h2 hget2 hmem2 ih => exact AncestorChainMW.step ih hget2 hmem2

/-- Every route emitted by a successful spec loop is either a route
directly in the specs, with `inherited ++ own` middleware, or comes from
a successful child walk handed `inherited ++ own` (inheriting edge) or
the empty list (mount edge). -/
theorem walkSpecs_routes
    (walkChild : Nat → List Nat → List Nat → Except BErr (List RouteDef × List Nat))
    (P : Nat → List Nat → RouteDef → Prop)
    (hWC : ∀ c s m r, walkChild c s m = .ok r → ∀ rd ∈ r.1, P c m rd) :
    ∀ (specs : List BSpec) (own mw seen : List Nat) (r : List RouteDef × List Nat),
      walkSpecs walkChild specs own mw seen = .ok r →
      ∀ rd ∈ r.1,
        (BSpec.route rd.method rd.pattern rd.handler ∈ specs ∧
          rd.middleware = mw ++ own) ∨
        (∃ inh c, BSpec.sub inh c ∈ specs ∧
          P c (if inh then mw ++ own else []) rd) := by
  intro specs
  induction specs with
  | nil =>
    intro own mw seen r h rd hrd
    simp only [walkSpecs, Except.ok.injEq] at h
    subst h
    simp at hrd
  | cons spec rest ih =>
    intro own mw seen r h rd hrd
    cases spec with
    | route meth pat hdl =>
      simp only [walkSpecs] at h
      split at h
      · exact absurd h (by simp)
      · rename_i tl hrest
        simp only [Except.ok.injEq] at h
        subst h
        rcases List.mem_cons.mp hrd with heq | hmem2
        · subst heq
          exact Or.inl ⟨List.mem_cons_self _ _, rfl⟩
        · rcases ih own mw seen tl hrest rd hmem2 with ⟨hm, hmw⟩ | ⟨inh, c, hm, hP⟩
          · exact Or.inl ⟨List.mem_cons_of_mem _ hm, hmw⟩
          · exact Or.inr ⟨inh, c, List.mem_cons_of_mem _ hm, hP⟩
    | sub inh0 c0 =>
      simp only [walkSpecs] at h
      split at h
      · exact absurd h (by simp)
      · rename_i sv hsub
        split at h
        · exact absurd h (by simp)
        · rename_i tl hrest
          simp only [Except.ok.injEq] at h
          subst h
          rcases List.mem_append.mp hrd with hmem2 | hmem2
          · exact Or.inr ⟨inh0, c0, List.mem_cons_self _ _,
              hWC c0 seen _ sv hsub rd hmem2⟩
          · rcases ih own mw sv.2 tl hrest rd hmem2 with ⟨hm, hmw⟩ | ⟨inh, c, hm, hP⟩
            · exact Or.inl ⟨List.mem_cons_of_mem _ hm, hmw⟩
            · exact Or.inr ⟨inh, c, List.mem_cons_of_mem _ hm, hP⟩

/-- Every route emitted by a successful walk of node `bid` (inheriting
`mw`) sits directly on some node `n` attached under `bid`, and its
middleware is exactly what `n` inherits along that attachment chain
followed by the own middleware of `n`. -/
theorem walk_routes (store : BStore) :
    ∀ (fuel bid : Nat) (seen mw : List Nat) (r : List RouteDef × List Nat),
      walk store fuel bid seen mw = .ok r →
      ∀ rd ∈ r.1, ∃ n node mwN,
        AncestorChainMW store bid mw n mwN ∧
        store.get? n = some node ∧
        BSpec.route rd.method rd.pattern rd.handler ∈ node.specs ∧
        rd.middleware = mwN ++ node.middleware := by
  intro fuel
  induction fuel with
  | zero =>
    intro bid seen mw r h
    simp [walk] at h
  | succ fuel ih =>
    intro bid seen mw r h rd hrd
    simp only [walk] at h
    split at h
    · exact absurd h (by simp)
    · rcases hget : store.get? bid with _ | b <;> rw [hget] at h
      · exact absurd h (by simp)
      · rcases walkSpecs_routes (walk store fuel)
          (fun c mwC rd => ∃ n node mwN,
            AncestorChainMW store c mwC n mwN ∧
            store.get? n = some node ∧
            BSpec.route rd.method rd.pattern rd.handler ∈ node.specs ∧
            rd.middleware = mwN ++ node.middleware)
          (fun c s m r2 hr2 rd2 hrd2 => ih c s m r2 hr2 rd2 hrd2)
          b.specs b.middleware mw (bid :: seen) r h rd hrd with
          ⟨hmem, hmw⟩ | ⟨inh, c, hmem, n, node, mwN, hchain, hgetn, hroute, hmw⟩
        · exact ⟨bid, b, mw, AncestorChainMW.refl, hget, hmem, hmw⟩
        · exact ⟨n, node, mwN, AncestorChainMW.front hget hmem hchain, hgetn,
            hroute, hmw⟩

/-- Claim C8: for every route-builder tree, flattening via `RouteDefs`
gives each concrete route the concatenation of inherited ancestor
middleware followed by the middleware of its own node, in ancestor-first
order, where the inherited list accumulates through inheriting
(`Group`/`Route`) edges and is reset to empty at each `Mount` edge — so a
mounted subtree receives none of the mounting node's ancestor middleware
and only middleware registered inside it applies.  The second conjunct
evaluates this on a two-level tree quantified over all five nodes'
middleware lists: the root (middleware `P`) has a route, an inheriting
child (middleware `G`) and a mounted child (middleware `M`); the
inheriting child in turn has a route, an inheriting grandchild
(middleware `Q`) and a mounted grandchild (middleware `N`). -/
theorem claim_C8_flatten_middleware :
    (∀ (store : BStore) (root : Nat) (defs : List RouteDef),
      routeDefs store root = .ok defs →
      ∀ rd ∈ defs, ∃ n node mwN,
        AncestorChainMW store root [] n mwN ∧
        store.get? n = some node ∧
        BSpec.route rd.method rd.pattern rd.handler ∈ node.specs ∧
        rd.middleware = mwN ++ node.middleware) ∧
    (∀ P G Q M N : List Nat,
      routeDefs
        [⟨[.route "GET" "/r0" 0, .sub true 1, .sub false 2], P⟩,
         ⟨[.route "GET" "/r1" 1, .sub true 3, .sub false 4], G⟩,
         ⟨[.route "GET" "/r2" 2], M⟩,
         ⟨[.route "GET" "/r3" 3], Q⟩,
         ⟨[.route "GET" "/r4" 4], N⟩] 0 =
        .ok [⟨"GET", "/r0", 0, P⟩,
             ⟨"GET", "/r1", 1, P ++ G⟩,
             ⟨"GET", "/r3", 3, (P ++ G) ++ Q⟩,
             ⟨"GET", "/r4", 4, N⟩,
             ⟨"GET", "/r2", 2, M⟩]) := by
  constructor
  · intro store root defs hok rd hrd
    obtain ⟨r, hw, hdefs⟩ :
        ∃ r, walk store (store.length + 1) root [] [] = .ok r ∧ defs = r.1 := by
      unfold routeDefs at hok
      rcases hwalk : walk store (store.length + 1) root [] [] with e | r <;>
        rw [hwalk] at hok
      · simp [Except.map] at hok
      · simp only [Except.map, Except.ok.injEq] at hok
        exact ⟨r, rfl, hok.symm⟩
    subst hdefs
    exact walk_routes store (store.length + 1) root [] [] r hw rd hrd
  · intro P G Q M N
    rfl

/-- Witness for `claim_C8_flatten_middleware` at `twoNodeStore`: the
route `/b` emitted by flattening (middleware `[1, 2]`) sits on a node
attached under the root, and its middleware is the ancestor-first
inherited list followed by the own middleware of that node. -/
theorem claim_C8_witness :
    ∃ n node mwN,
      AncestorChainMW twoNodeStore 0 [] n mwN ∧
      twoNodeStore.get? n = some node ∧
      BSpec.route "GET" "/b" 1 ∈ node.specs ∧
      ([1, 2] : List Nat) = mwN ++ node.middleware := by
  have h := claim_C8_flatten_middleware.1 twoNodeStore 0
    [⟨"GET", "/a", 0, [1]⟩, ⟨"GET", "/b", 1, [1, 2]⟩] (by rfl)
    ⟨"GET", "/b", 1, [1, 2]⟩ (by decide)
  exact h

/-- A successful walk implies its node was not already seen (a revisit
is the cycle panic). -/
theorem walk_ok_not_seen (store : BStore) (fuel bid : Nat) (seen mw : List Nat)
    (r : List RouteDef × List Nat) (h : walk store fuel bid seen mw = .ok r) :
    bid ∉ seen := by
  cases fuel with
  | zero => simp [walk] at h
  | succ fuel =>
    simp only [walk] at h
    by_cases hc : seen.contains bid = true
    · rw [if_pos hc] at h
      exact absurd h (by simp)
    · intro hmem
      exact hc (by simpa using hmem)

/-- A successful spec loop only grows the seen set. -/
theorem walkSpecs_seen_mono
    (walkChild : Nat → List Nat → List Nat → Except BErr (List RouteDef × List Nat))
    (hWC : ∀ c s m r, walkChild c s m = .ok r → s ⊆ r.2) :
    ∀ (specs : List BSpec) (own mw seen : List Nat) (r : List RouteDef × List Nat),
      walkSpecs walkChild specs own mw seen = .ok r → seen ⊆ r.2 := by
  intro specs
  induction specs with
  | nil =>
    intro own mw seen r h
    simp only [walkSpecs, Except.ok.injEq] at h
    subst h
    exact fun x hx => hx
  | cons spec rest ih =>
    intro own mw seen r h
    cases spec with
    | route meth pat hdl =>
      simp only [walkSpecs] at h
      split at h
      · exact absurd h (by simp)
      · rename_i tl hrest
        simp only [Except.ok.injEq] at h
        subst h
        exact ih own mw seen tl hrest
    | sub inh child =>
      simp only [walkSpecs] at h
      split at h
      · exact absurd h (by simp)
      · rename_i sv hsub
        split at h
        · exact absurd h (by simp)
        · rename_i tl hrest
          simp only [Except.ok.injEq] at h
          subst h
          exact (hWC child seen _ sv hsub).trans (ih own mw sv.2 tl hrest)

/-- A successful walk only grows the seen set, and records its node. -/
theorem walk_seen_mono (store : BStore) :
    ∀ (fuel bid : Nat) (seen mw : List Nat) (r : List RouteDef × List Nat),
      walk store fuel bid seen mw = .ok r → seen ⊆ r.2 ∧ bid ∈ r.2 := by
  intro fuel
  induction fuel with
  | zero =>
    intro bid seen mw r h
    simp [walk] at h
  | succ fuel ih =>
    intro bid seen mw r h
    simp only [walk] at h
    split at h
    · exact absurd h (by simp)
    · rcases hget : store.get? bid with _ | b <;> rw [hget] at h
      · exact absurd h (by simp)
      · have hmono := walkSpecs_seen_mono (walk store fuel)
          (fun c s m r' hr' => (ih c s m r' hr').1) b.specs b.middleware mw (bid :: seen) r h
        exact ⟨fun x hx => hmono (List.mem_cons_of_mem bid hx),
          hmono (List.mem_cons_self bid seen)⟩

/-- A successful spec loop implies a successful walk of each attached
child, from a seen set containing the loop's initial one. -/
theorem walkSpecs_sub_ok
    (walkChild : Nat → List Nat → List Nat → Except BErr (List RouteDef × List Nat))
    (hWC : ∀ c s m r, walkChild c s m = .ok r → s ⊆ r.2) :
    ∀ (specs : List BSpec) (own mw seen : List Nat) (r : List RouteDef × List Nat)
      (inh : Bool) (c : Nat),
      walkSpecs walkChild specs own mw seen = .ok r → BSpec.sub inh c ∈ specs →
      ∃ s1 r1, walkChild c s1 (if inh then mw ++ own else []) = .ok r1 ∧ seen ⊆ s1 := by
  intro specs
  induction specs with
  | nil =>
    intro own mw seen r inh c h hmem
    simp at hmem
  | cons spec rest ih =>
    intro own mw seen r inh c h hmem
    cases spec with
    | route meth pat hdl =>
      rcases List.mem_cons.mp hmem with heq | hmem2
      · exact absurd heq (by simp)
      · simp only [walkSpecs] at h
        split at h
        · exact absurd h (by simp)
        · rename_i tl hrest
          exact ih own mw seen tl inh c hrest hmem2
    | sub inh0 c0 =>
      simp only [walkSpecs] at h
      split at h
      · exact absurd h (by simp)
      · rename_i sv hsub
        split at h
        · exact absurd h (by simp)
        · rename_i tl hrest
          rcases List.mem_cons.mp hmem with heq | hmem2
          · injection heq with h1 h2
            subst h1
            subst h2
            exact ⟨seen, sv, hsub, fun x hx => hx⟩
          · obtain ⟨s1, r1, hok, hsb⟩ := ih own mw sv.2 tl inh c hrest hmem2
            exact ⟨s1, r1, hok, (hWC c0 seen _ sv hsub).trans hsb⟩

/-- A successful walk of a node implies a successful walk of each of its
children, whose seen set contains the node. -/
theorem walk_edge_ok (store : BStore) (fuel bid : Nat) (seen mw : List Nat)
    (r : List RouteDef × List Nat) (c : Nat)
    (h : walk store fuel bid seen mw = .ok r) (he : bEdge store bid c) :
    ∃ fuel2 seen2 mw2 r2, walk store fuel2 c seen2 mw2 = .ok r2 ∧
      bid :: seen ⊆ seen2 := by
  obtain ⟨node, hget, inh, hmem⟩ := he
  cases fuel with
  | zero => simp [walk] at h
  | succ fuel =>
    simp only [walk] at h
    split at h
    · exact absurd h (by simp)
    · rw [hget] at h
      obtain ⟨s1, r1, hok, hsb⟩ := walkSpecs_sub_ok (walk store fuel)
        (fun c2 s m r2 hr2 => (walk_seen_mono store fuel c2 s m r2 hr2).1)
        node.specs node.middleware mw (bid :: seen) r inh c h hmem
      exact ⟨fuel, s1, _, r1, hok, hsb⟩

/-- A successful walk of a node implies a successful walk of each of its
transitive children, whose seen set contains the node. -/
theorem walk_transGen_ok (store : BStore) (fuel c : Nat) (seen mw : List Nat)
    (r : List RouteDef × List Nat) (d : Nat)
    (h : walk store fuel c seen mw = .ok r)
    (htg : Relation.TransGen (bEdge store) c d) :
    ∃ fuel2 seen2 mw2 r2, walk store fuel2 d seen2 mw2 = .ok r2 ∧
      c ∈ seen2 ∧ seen ⊆ seen2 := by
  induction htg with
  | single he =>
    obtain ⟨f2, s2, m2, r2, hok, hsb⟩ := walk_edge_ok store fuel c seen mw r _ h he
    exact ⟨f2, s2, m2, r2, hok, hsb (List.mem_cons_self _ _),
      fun x hx => hsb (List.mem_cons_of_mem _ hx)⟩
  | tail htg2 he ih =>
    obtain ⟨f1, s1, m1, r1, hok1, hc1, hs1⟩ := ih
    obtain ⟨f2, s2, m2, r2, hok2, hsb2⟩ := walk_edge_ok store f1 _ s1 m1 r1 _ hok1 he
    exact ⟨f2, s2, m2, r2, hok2, hsb2 (List.mem_cons_of_mem _ hc1),
      fun x hx => hsb2 (List.mem_cons_of_mem _ (hs1 hx))⟩

/-- Claim C9: for every route-builder tree in which some node (reachable
from the root) is attached as its own transitive child, flattening fails
fatally when that node is revisited rather than looping or producing a
route list: in general no `RouteDefs` call on such a store can return a
route list, and on concrete cyclic stores (a self-attached node, and a
two-node cycle, with arbitrary middleware and trailing specs) the result
is exactly the cycle error. -/
theorem claim_C9_cycle_error :
    (∀ (store : BStore) (root c : Nat),
      Relation.ReflTransGen (bEdge store) root c →
      Relation.TransGen (bEdge store) c c →
      ∀ defs, routeDefs store root ≠ .ok defs) ∧
    (∀ (mw0 mw1 : List Nat) (extra : List BSpec),
      routeDefs [⟨.sub true 0 :: extra, mw0⟩] 0 = .error .cycle ∧
      routeDefs [⟨.sub true 1 :: extra, mw0⟩, ⟨[.sub true 0], mw1⟩] 0 =
        .error .cycle) := by
  constructor
  · intro store root c hrt htg defs hok
    obtain ⟨r, hw⟩ : ∃ r, walk store (store.length + 1) root [] [] = .ok r := by
      unfold routeDefs at hok
      rcases hwalk : walk store (store.length + 1) root [] [] with e | r
      · rw [hwalk] at hok
        simp [Except.map] at hok
      · exact ⟨r, rfl⟩
    rcases (Relation.reflTransGen_iff_eq_or_transGen).mp hrt with heq | htg0
    · subst heq
      obtain ⟨f2, s2, m2, r2, hok2, hc2, _⟩ :=
        walk_transGen_ok store _ c [] [] r c hw htg
      exact walk_ok_not_seen store f2 c s2 m2 r2 hok2 hc2
    · obtain ⟨f1, s1, m1, r1, hok1, _, _⟩ :=
        walk_transGen_ok store _ root [] [] r c hw htg0
      obtain ⟨f2, s2, m2, r2, hok2, hc2, _⟩ :=
        walk_transGen_ok store f1 c s1 m1 r1 c hok1 htg
      exact walk_ok_not_seen store f2 c s2 m2 r2 hok2 hc2
  · intro mw0 mw1 extra
    exact ⟨rfl, rfl⟩

/-- Witness for `claim_C9_cycle_error` at the concrete two-node cycle:
node 0 attaches node 1 which attaches node 0 again, and flattening from
node 0 produces no route list. -/
theorem claim_C9_witness : routeDefs cycleStore 0 ≠ .ok [] := by
  have hedge01 : bEdge cycleStore 0 1 := ⟨⟨[.sub true 1], []⟩, rfl, true, by simp⟩
  have hedge10 : bEdge cycleStore 1 0 := ⟨⟨[.sub true 0], []⟩, rfl, true, by simp⟩
  exact claim_C9_cycle_error.1 cycleStore 0 0 Relation.ReflTransGen.refl
    (Relation.TransGen.head hedge01 (Relation.TransGen.single hedge10)) []

/-- The dispatch loop characterised at the first matching route: nothing
before index `i` matches and route `i` does, so dispatch invokes exactly
the handler of route `i` with the context `Run` bound into the
checked-out chain, replaces the stack of route `i` by its post-`Get`/`Release` state, and
reports found. -/
theorem serveList_first_match :
    ∀ (rs : List SRoute) (r : Request) (i : Nat) (hi : i < rs.length),
      (rs.get ⟨i, hi⟩).pat.mtch r = true →
      (∀ j (hj : j < rs.length), j < i → (rs.get ⟨j, hj⟩).pat.mtch r = false) →
      serveList rs r =
        ([((rs.get ⟨i, hi⟩).handler,
           (rs.get ⟨i, hi⟩).pat.runp r (((rs.get ⟨i, hi⟩).mware.get).1.ctx))],
         rs.set i
           { rs.get ⟨i, hi⟩ with
             mware := (((rs.get ⟨i, hi⟩).mware.get).2).release
               { ((rs.get ⟨i, hi⟩).mware.get).1 with
                 ctx := (rs.get ⟨i, hi⟩).pat.runp r
                   (((rs.get ⟨i, hi⟩).mware.get).1.ctx) } },
         true) := by
  intro rs
  induction rs with
  | nil =>
    intro r i hi
    exact absurd hi (by simp)
  | cons rt rest ih =>
    intro r i hi hm hprev
    cases i with
    | zero =>
      simp only [List.get] at hm
      simp [serveList, hm]
    | succ i =>
      have h0 : rt.pat.mtch r = false := hprev 0 (by simp) (by omega)
      have hi' : i < rest.length := by simpa using hi
      have hm' : (rest.get ⟨i, hi'⟩).pat.mtch r = true := by
        simpa [List.get] using hm
      have hprev' : ∀ j (hj : j < rest.length), j < i →
          (rest.get ⟨j, hj⟩).pat.mtch r = false := by
        intro j hj hlt
        have := hprev (j + 1) (by simpa using hj) (by omega)
        simpa [List.get] using this
      simp only [serveList, h0, Bool.false_eq_true, if_false]
      rw [ih r i hi' hm' hprev']
      simp [List.get, List.set]

/-- Claim C1: for every router and every request, dispatch scans the
routes registered for the request's method in registration order; at the
first route whose `Match` succeeds it runs `Run` to bind variables into
the checked-out chain's context, invokes that chain's handler with that
context, releases the chain, and stops — so no later route's handler is
invoked even if its pattern also matches the path. -/
theorem claim_C1_first_match_wins (s : SimpleRouter) (r : Request) (i : Nat)
    (hi : i < (routesFor s r.method).length)
    (hm : ((routesFor s r.method).get ⟨i, hi⟩).pat.mtch r = true)
    (hprev : ∀ j (hj : j < (routesFor s r.method).length), j < i →
      ((routesFor s r.method).get ⟨j, hj⟩).pat.mtch r = false) :
    serveHTTP s r =
      ([(((routesFor s r.method).get ⟨i, hi⟩).handler,
         ((routesFor s r.method).get ⟨i, hi⟩).pat.runp r
           ((((routesFor s r.method).get ⟨i, hi⟩).mware.get).1.ctx))],
       (routesFor s r.method).set i
         { (routesFor s r.method).get ⟨i, hi⟩ with
           mware := ((((routesFor s r.method).get ⟨i, hi⟩).mware.get).2).release
             { (((routesFor s r.method).get ⟨i, hi⟩).mware.get).1 with
               ctx := ((routesFor s r.method).get ⟨i, hi⟩).pat.runp r
                 ((((routesFor s r.method).get ⟨i, hi⟩).mware.get).1.ctx) } },
       true) :=
  serveList_first_match (routesFor s r.method) r i hi hm hprev

/-- Witness for `claim_C1_first_match_wins`: a router with two GET routes
whose patterns both match the request; only the first-registered route's
handler (label 0) is invoked, with the chain's base context. -/
theorem claim_C1_witness :
    (serveHTTP twoRouteRouter getReq).1 = [(0, none)] ∧
    (serveHTTP twoRouteRouter getReq).2.2 = true := by
  have h := claim_C1_first_match_wins twoRouteRouter getReq 0 (by decide)
    (by decide) (fun j hj hlt => absurd hlt (Nat.not_lt_zero j))
  constructor
  · rw [h]
    rfl
  · rw [h]

/-- The pool invariant holds in every reachable configuration. -/
theorem mwReach_poolInv {α : Type} [DecidableEq α] {cfg : MWConfig α}
    (h : MWReach cfg) : poolInv cfg := by
  induction h with
  | new mws =>
    exact ⟨by simp [mwNew], by simp⟩
  | push cfg mw h ih =>
    obtain ⟨_, ih2⟩ := ih
    refine ⟨by simp [MWStack.push, MWStack.resetPool], ?_⟩
    intro it hit g hg
    have := ih2 it hit g hg
    simp only [MWStack.push, MWStack.resetPool] at *
    omega
  | removeOk cfg mw m h hr ih =>
    obtain ⟨_, ih2⟩ := ih
    simp only [MWStack.remove] at hr
    rcases hidx : cfg.stack.funcs.indexOf? mw with _ | i <;> rw [hidx] at hr
    · exact absurd hr (by simp)
    · simp only [Except.ok.injEq] at hr
      subst hr
      refine ⟨by simp [MWStack.resetPool], ?_⟩
      intro it hit g hg
      have := ih2 it hit g hg
      simp only [MWStack.resetPool] at *
      omega
  | get cfg h ih =>
    obtain ⟨ih1, ih2⟩ := ih
    rcases hpool : cfg.stack.pool with _ | ⟨it, rest⟩
    · refine ⟨?_, ?_⟩
      · simp only [MWStack.get, hpool]
        intro x hx
        exact ih1 x (by rw [hpool]; exact hx)
      · simp only [MWStack.get, hpool]
        intro x hx g hg
        rcases List.mem_cons.mp hx with hx | hx
        · subst hx
          simp only [MWStack.newResolved] at hg
          cases hg
          exact ⟨le_refl _, fun _ => rfl⟩
        · exact ih2 x hx g hg
    · refine ⟨?_, ?_⟩
      · simp only [MWStack.get, hpool]
        intro x hx
        have := ih1 x (by rw [hpool]; exact List.mem_cons_of_mem it hx)
        simpa using this
      · simp only [MWStack.get, hpool]
        intro x hx g hg
        rcases List.mem_cons.mp hx with hx | hx
        · subst hx
          simp only [] at hg
          cases hg
          have := ih1 it (by rw [hpool]; exact List.mem_cons_self it rest)
          exact ⟨le_refl _, fun _ => this.1⟩
        · exact ih2 x hx g hg
  | release s pre post stack h ih =>
    obtain ⟨ih1, ih2⟩ := ih
    have hs : s ∈ pre ++ s :: post := by simp
    by_cases htag : s.poolTag = some stack.gen
    · have hsinv := ih2 s hs stack.gen htag
      refine ⟨?_, ?_⟩
      · simp only [MWStack.release, htag, if_pos]
        intro x hx
        rcases List.mem_cons.mp hx with hx | hx
        · subst hx
          exact ⟨hsinv.2 rfl, rfl, rfl⟩
        · exact ih1 x hx
      · simp only [MWStack.release, htag, if_pos]
        intro x hx g hg
        exact ih2 x (by rcases List.mem_append.mp hx with hx | hx <;> simp [hx]) g hg
    · refine ⟨?_, ?_⟩
      · simp only [MWStack.release, htag, if_neg]
        intro x hx
        exact ih1 x hx
      · simp only [MWStack.release, htag, if_neg]
        intro x hx g hg
        exact ih2 x (by rcases List.mem_append.mp hx with hx | hx <;> simp [hx]) g hg
  | mutate s c pre post stack h ih =>
    obtain ⟨ih1, ih2⟩ := ih
    refine ⟨ih1, ?_⟩
    intro x hx g hg
    rcases List.mem_append.mp hx with hx | hx
    · exact ih2 x (by simp [hx]) g hg
    · rcases List.mem_cons.mp hx with hx | hx
      · subst hx
        simp only [] at hg
        exact ih2 s (by simp) g hg
      · exact ih2 x (by simp [hx]) g hg

/-- Claim C7: in every reachable stack state, the next chain handed out
by `Get` is built from the current middleware list; `Push` (and a
successful `Remove`) appends/removes and swaps in a fresh empty pool with
a new generation; and `Release` resets the released item's context slot
to the base context and returns it only to the pool generation it was
checked out from — when the generation no longer matches, the stack (and
in particular the new pool) is left untouched and the item is discarded. -/
theorem claim_C7_pool_invariant {α : Type} [DecidableEq α] (cfg : MWConfig α)
    (h : MWReach cfg) :
    ((cfg.stack.get).1.builtFrom = cfg.stack.funcs) ∧
    (∀ mw : α, (cfg.stack.push mw).funcs = cfg.stack.funcs ++ [mw] ∧
      (cfg.stack.push mw).gen = cfg.stack.gen + 1 ∧
      (cfg.stack.push mw).pool = []) ∧
    (∀ (mw : α) (m : MWStack α), cfg.stack.remove mw = .ok m →
      m.gen = cfg.stack.gen + 1 ∧ m.pool = []) ∧
    (∀ s : StackItem α,
      (s.poolTag ≠ some cfg.stack.gen → cfg.stack.release s = cfg.stack) ∧
      (s.poolTag = some cfg.stack.gen →
        cfg.stack.release s =
          { cfg.stack with
            pool := { s with ctx := cfg.stack.baseCtx, poolTag := none } ::
              cfg.stack.pool })) := by
  obtain ⟨inv1, _⟩ := mwReach_poolInv h
  refine ⟨?_, ?_, ?_, ?_⟩
  · rcases hpool : cfg.stack.pool with _ | ⟨it, rest⟩
    · simp [MWStack.get, hpool, MWStack.newResolved]
    · have := inv1 it (by rw [hpool]; exact List.mem_cons_self it rest)
      simp [MWStack.get, hpool, this.1]
  · intro mw
    exact ⟨by simp [MWStack.push, MWStack.resetPool],
      by simp [MWStack.push, MWStack.resetPool],
      by simp [MWStack.push, MWStack.resetPool]⟩
  · intro mw m hr
    simp only [MWStack.remove] at hr
    rcases hidx : cfg.stack.funcs.indexOf? mw with _ | i <;> rw [hidx] at hr
    · exact absurd hr (by simp)
    · simp only [Except.ok.injEq] at hr
      subst hr
      exact ⟨by simp [MWStack.resetPool], by simp [MWStack.resetPool]⟩
  · intro s
    constructor
    · intro htag
      simp [MWStack.release, htag]
    · intro htag
      simp [MWStack.release, htag]

/-- Witness for `claim_C7_pool_invariant` at the freshly constructed
stack with middleware list `[3]`: the first chain handed out is built
from `[3]`, and a push of `4` empties the pool. -/
theorem claim_C7_witness :
    (((mwNew ([3] : List Nat)).get).1.builtFrom = [3]) ∧
    (((mwNew ([3] : List Nat)).push 4).pool = []) := by
  have h := claim_C7_pool_invariant ⟨mwNew [3], []⟩ (MWReach.new [3])
  exact ⟨h.1, (h.2.1 4).2.2⟩

end Wolf
